import Mathlib

/-!
Verification of the template-expansion engine of the mdbook-template
repository (src/lib.rs, src/links.rs, src/utils.rs).

The development shallowly embeds the Rust code over `List Char`:

* Rust `String` / `&str` become `List Char`; byte indices become character
  indices (all behaviour relevant here is index-arithmetic over the scanned
  text, which is identical for the two representations).
* The two compiled regular expressions `TEMPLATE` and `ARGS` of links.rs are
  hand-compiled, alternative by alternative, into deterministic matching
  functions that reproduce the leftmost-first alternation and the
  greedy/lazy backtracking of the patterns on their concrete character
  classes.  The inline argument pattern `TEMPLATE_ARGS` (look-behind, lazy
  capture, look-ahead) is compiled the same way.
* `fs` / `HashMap` file reading is abstracted, exactly as in the code, into
  a provider function `List Char -> Option (List Char)` (the `FileReader`
  trait); `none` is a read error.
* The `expect` inside `LinkType::relative_path` can panic.  A panic is
  modelled as the result `none` of `replace_template`; a normal return is
  `some output`.
* `\s` of the regex crate and `str::trim` are modelled on the common ASCII
  whitespace subset (space, tab, carriage return, line feed), which covers
  every character class distinction the engine relies on.
-/

/-- ASCII whitespace test modelling the regex class `\s` and `str::trim`. -/
def isWs (c : Char) : Bool :=
  c = ' ' || c = '\t' || c = '\r' || c = '\n'

/-- Half-open character-index strSlice `t[a..b]` of Rust, as list take/drop. -/
def strSlice (t : List Char) (a b : Nat) : List Char :=
  (t.drop a).take (b - a)

/-- Model of Rust `str::trim` (both ends, whitespace). -/
def trimChars (s : List Char) : List Char :=
  ((s.dropWhile isWs).reverse.dropWhile isWs).reverse

/-- Model of Rust `str::split(&['\n', '\r'])`: split at every occurrence of
either line-break character; adjacent separators produce empty segments. -/
def splitOnLB : List Char → List (List Char)
  | [] => [[]]
  | c :: r =>
    match splitOnLB r with
    | [] => [[]]
    | seg :: rest =>
      if c = '\n' || c = '\r' then [] :: seg :: rest
      else (c :: seg) :: rest

/-- Argument mapping: model of the `HashMap<&str, &str>` that
`Link::from_capture` builds with `extend` (a later binding for the same
name overwrites an earlier one). -/
abbrev ArgsMap := List (List Char × List Char)

/-- Lookup in the argument mapping; the LAST binding of a name wins,
modelling `HashMap::extend` followed by `HashMap::get`. -/
def lookupLast : ArgsMap → List Char → Option (List Char)
  | [], _ => none
  | (k, v) :: rest, key =>
    match lookupLast rest key with
    | some r => some r
    | none => if k = key then some v else none

/-- Paths are plain strings of characters, as in Rust `Path` on Unix. -/
abbrev PathS := List Char

/-- Whether a path is absolute (`Path::is_absolute` on Unix). -/
def pathIsAbs (p : PathS) : Bool := p.head? = some '/'

/-- Model of Rust `Path::join`: an absolute right operand replaces the
base; otherwise the operand is appended with a separator as needed. -/
def pathJoin (base p : PathS) : PathS :=
  if pathIsAbs p then p
  else if base.isEmpty then p
  else if base.getLast? = some '/' then base ++ p
  else base ++ '/' :: p

/-- Remove trailing separators (component normalisation of Rust paths). -/
def dropTrailingSlashes (p : PathS) : PathS :=
  (p.reverse.dropWhile (fun c => c = '/')).reverse

/-- Model of Rust `Path::parent`: `none` for the empty path and for the
root, otherwise the path with its last component removed. -/
def pathParent (p : PathS) : Option PathS :=
  if p.isEmpty then none
  else if p.all (fun c => c = '/') then none
  else
    let q := dropTrailingSlashes p
    let r := (q.reverse.dropWhile (fun c => c ≠ '/')).reverse
    if r.isEmpty then some []
    else if r.all (fun c => c = '/') then some ['/']
    else some (dropTrailingSlashes r)

/-- The `FileReader` capability of utils.rs: maps a resolved path to the
file content, or `none` for a read failure.  `TestFileReader` is exactly a
finite such map; `SystemFileReader` is an arbitrary such function. -/
abbrev Provider := PathS → Option (List Char)

/-! ## Inline invocation-argument parsing

Hand compilation of the `TEMPLATE_ARGS` pattern of links.rs,

  `(?<=\s|\A)([^\s=]+)=(.*?)(?=(?:\s[^\s=]+=|$))`

driven by `captures_iter`, followed by `splitn(2, '=')` on each match.
-/

/-- Length of the leading run of the class `[^\s=]` (the name run). -/
def nameRunLen (s : List Char) : Nat :=
  (s.takeWhile (fun c => !(isWs c) && c ≠ '=')).length

/-- The look-ahead `(?=(?:\s[^\s=]+=|$))`: either end of the argument
text, or one whitespace character, a non-empty name run, and `=`. -/
def lookaheadBoundary : List Char → Bool
  | [] => true
  | c :: r =>
    isWs c && (nameRunLen r ≠ 0 && (r.drop (nameRunLen r)).head? = some '=')

/-- The lazy capture `(.*?)` before the look-ahead: the smallest number of
non-newline characters after which `lookaheadBoundary` holds. -/
def findValueLen (s : List Char) : Option Nat :=
  if lookaheadBoundary s then some 0
  else
    match s with
    | [] => none
    | c :: r => if c = '\n' then none else (findValueLen r).map (· + 1)

/-- One attempted `TEMPLATE_ARGS` match at the current position (the
look-behind is checked by the caller): name run, `=`, lazy value. -/
def tryPair (s : List Char) : Option (List Char × List Char) :=
  let n := nameRunLen s
  if n = 0 then none
  else if (s.drop n).head? = some '=' then
    match findValueLen (s.drop (n + 1)) with
    | some vl => some (s.take n, (s.drop (n + 1)).take vl)
    | none => none
  else none

/-- The look-behind `(?<=\s|\A)`: start of the argument text or a
whitespace character just before the match position. -/
def prevOk : Option Char → Bool
  | none => true
  | some p => isWs p

/-- Scanning loop of `captures_iter` for `TEMPLATE_ARGS`: try a match at
every position whose look-behind holds, continue after each match.  The
fuel is the length of the scanned text (each step consumes at least one
character). -/
def parseInlineAux : Nat → Option Char → List Char → ArgsMap
  | 0, _, _ => []
  | _ + 1, _, [] => []
  | fuel + 1, prev, c :: rest =>
    if prevOk prev then
      match tryPair (c :: rest) with
      | some (nm, v) =>
        (trimChars nm, v) ::
          parseInlineAux fuel (((c :: rest).take (nm.length + 1 + v.length)).getLast?)
            ((c :: rest).drop (nm.length + 1 + v.length))
      | none => parseInlineAux fuel (some c) rest
    else parseInlineAux fuel (some c) rest

/-- Inline layout of `Link::from_capture`: all `TEMPLATE_ARGS` matches of
the raw argument text, each split at its first `=` (the name is trimmed,
the value kept as matched). -/
def parseInline (raw : List Char) : ArgsMap :=
  parseInlineAux raw.length none raw

/-- `splitn(2, '=')` on one line: `none` when the line has no `=`
(the malformed pair is reported and skipped), otherwise the trimmed left
side and the untouched right side. -/
def splitFirstEq (line : List Char) : Option (List Char × List Char) :=
  let pre := line.takeWhile (fun c => c ≠ '=')
  if pre.length = line.length then none
  else some (trimChars pre, line.drop (pre.length + 1))

/-- Multi-line layout of `Link::from_capture`: split at line breaks, trim
every line, drop empty lines, split each remaining line at its first `=`. -/
def parseMultiline (raw : List Char) : ArgsMap :=
  (((splitOnLB raw).map trimChars).filter (fun l => !l.isEmpty)).filterMap splitFirstEq

/-- `args.as_str().contains(LINE_BREAKS)` of `Link::from_capture`. -/
def hasLineBreak (raw : List Char) : Bool :=
  raw.any (fun c => c = '\n' || c = '\r')

/-- Argument parsing of `Link::from_capture`: the multi-line layout when
the raw text contains a line break, the inline layout otherwise. -/
def parseArgs (raw : List Char) : ArgsMap :=
  if hasLineBreak raw then parseMultiline raw else parseInline raw

/-! ## The marker scanner

Hand compilation of the `TEMPLATE` pattern of links.rs (three
alternatives, tried in order at every position, leftmost match first):

  1. `\\\{\{\#.*\}\}`                                (escaped marker)
  2. `\{\{\s*\#(template)\s+([\S]+)\s*\}\}`          (template, no args)
  3. `\{\{\s*\#(template)\s+([\S]+)\s+([^}]+)\}\}`   (template with args)

and of the analogous `ARGS` pattern for placeholders.
-/

/-- Greedy `.*` before a doubled closing delimiter: the LARGEST index `k`
with `s[k] = close`, `s[k+1] = close` and no newline before position `k`
(`.` does not match a newline). -/
def lastCloseOnLine (close : Char) : List Char → Option Nat
  | [] => none
  | c :: rest =>
    if c = '\n' then none
    else
      match lastCloseOnLine close rest with
      | some k => some (k + 1)
      | none =>
        if c = close && rest.head? = some close then some 0 else none

/-- Length of the leading whitespace run (`\s*` / `\s+`). -/
def wsLen (s : List Char) : Nat := (s.takeWhile isWs).length

/-- Length of the leading non-whitespace run (`[\S]+`). -/
def nonWsLen (s : List Char) : Nat := (s.takeWhile (fun c => !(isWs c))).length

/-- Tail of alternative 2, `([\S]+)\s*` then the doubled close delimiter,
starting at the token run `r4` of maximal length `rlen`.  Greedy
backtracking over `[\S]+`: first the full run followed by optional
whitespace and the closing pair, otherwise the largest closing pair inside
the run (the token must stay non-empty).  Returns consumed length and the
captured token. -/
def closeTail (close : Char) (r4 : List Char) (rlen : Nat) :
    Option (Nat × List Char) :=
  let afterRun := r4.drop rlen
  let w3 := wsLen afterRun
  if (afterRun.drop w3).take 2 = [close, close] then
    some (rlen + w3 + 2, r4.take rlen)
  else
    match lastCloseOnLine close (r4.take rlen) with
    | some k => if 1 ≤ k then some (k + 2, r4.take k) else none
    | none => none

/-- Tail of alternative 3, `([\S]+)\s+([^X]+)` then the doubled close
delimiter `X`: the token is the full run, then at least one whitespace
character, then a capture reaching exactly to the first close delimiter,
which must be doubled.  When the capture would be empty the greedy `\s+`
backtracks by one character (only possible with at least two whitespace
characters).  Returns consumed length, token, and raw capture. -/
def argsTail (close : Char) (r4 : List Char) (rlen : Nat) :
    Option (Nat × List Char × List Char) :=
  let r5 := r4.drop rlen
  let w := wsLen r5
  if w = 0 then none
  else
    let r6 := r5.drop w
    let q := (r6.takeWhile (fun c => c ≠ close)).length
    if q ≠ 0 then
      if (r6.drop q).take 2 = [close, close] then
        some (rlen + w + q + 2, r4.take rlen, r6.take q)
      else none
    else
      if 2 ≤ w && r6.take 2 = [close, close] then
        some (rlen + w + 2, r4.take rlen, (r5.drop (w - 1)).take 1)
      else none

/-- The two link kinds of links.rs. -/
inductive LinkType
  | Escaped
  | Template (path : PathS)

deriving instance DecidableEq for LinkType

/-- A scanned template link (struct `Link` of links.rs): span into the
original text, kind, exact matched text, and the parsed argument map. -/
structure Link where
  start_index : Nat
  end_index : Nat
  link_type : LinkType
  link_text : List Char
  args : ArgsMap

deriving instance DecidableEq for Link

/-- Alternatives 2 and 3 of `TEMPLATE` after the opening `{{`:
`\s*`, `#`, the keyword `template`, `\s+`, then the path token and the
respective tail, alternative 2 attempted first.  Returns the length
consumed after the opening delimiter, the link kind, and the parsed
arguments. -/
def afterDoubleOpen (r : List Char) : Option (Nat × LinkType × ArgsMap) :=
  let w1 := wsLen r
  match r.drop w1 with
  | '#' :: r2 =>
    if r2.take 8 = "template".data then
      let r3 := r2.drop 8
      let w2 := wsLen r3
      if w2 = 0 then none
      else
        let r4 := r3.drop w2
        let rlen := nonWsLen r4
        if rlen = 0 then none
        else
          match closeTail '\x7d' r4 rlen with
          | some (con, path) =>
            some (w1 + 9 + w2 + con, LinkType.Template path, [])
          | none =>
            match argsTail '\x7d' r4 rlen with
            | some (con, path, raw) =>
              some (w1 + 9 + w2 + con, LinkType.Template path, parseArgs raw)
            | none => none
    else none
  | _ => none

/-- One attempted `TEMPLATE` match at the current position, split into the
first character `c` and the remaining text: alternative 1 when `c` is the
escape character, alternatives 2 and 3 when `c` opens a delimiter.
Returns the match length minus one (the match always has at least one
character), the link kind and the arguments. -/
def tryLink (c : Char) (rest : List Char) : Option (Nat × LinkType × ArgsMap) :=
  if c = '\\' then
    match rest with
    | '\x7b' :: '\x7b' :: '#' :: r =>
      match lastCloseOnLine '\x7d' r with
      | some k => some (5 + k, LinkType.Escaped, [])
      | none => none
    | _ => none
  else if c = '\x7b' then
    match rest with
    | '\x7b' :: r =>
      (afterDoubleOpen r).map (fun m => (1 + m.1, m.2.1, m.2.2))
    | _ => none
  else none

/-- Scanning loop of `captures_iter` over `TEMPLATE`
(`extract_template_links` + `LinkIter`): attempt a match at every
position, left to right; after a match continue right after it.  The fuel
is the length of the scanned text. -/
def scanLinks : Nat → List Char → Nat → List Link
  | 0, _, _ => []
  | _ + 1, [], _ => []
  | fuel + 1, c :: rest, i =>
    match tryLink c rest with
    | some (extra, lt, a) =>
      { start_index := i, end_index := i + 1 + extra, link_type := lt,
        link_text := (c :: rest).take (1 + extra), args := a } ::
        scanLinks fuel (rest.drop extra) (i + 1 + extra)
    | none => scanLinks fuel rest (i + 1)

/-- `extract_template_links` of links.rs. -/
def extract_template_links (t : List Char) : List Link :=
  scanLinks t.length t 0

/-! ## The placeholder scanner and substitutor -/

/-- The three placeholder kinds of links.rs (enum `ArgsType`). -/
inductive ArgsType
  | Escaped
  | Plain (name : List Char)
  | Default (name dft : List Char)

deriving instance DecidableEq for ArgsType

/-- A scanned placeholder (struct `Args` of links.rs). -/
structure Args where
  start_index : Nat
  end_index : Nat
  args_type : ArgsType
  args_text : List Char

deriving instance DecidableEq for Args

/-- Alternatives 2 and 3 of `ARGS` after the opening `[[`: `\s*`, `#`,
then directly the name token and the respective tail, the plain
alternative attempted first. -/
def afterDoubleBracket (r : List Char) : Option (Nat × ArgsType) :=
  let w1 := wsLen r
  match r.drop w1 with
  | '#' :: r2 =>
    let rlen := nonWsLen r2
    if rlen = 0 then none
    else
      match closeTail ']' r2 rlen with
      | some (con, name) => some (w1 + 1 + con, ArgsType.Plain name)
      | none =>
        match argsTail ']' r2 rlen with
        | some (con, name, dft) => some (w1 + 1 + con, ArgsType.Default name dft)
        | none => none
  | _ => none

/-- One attempted `ARGS` match at the current position (see `tryLink`). -/
def tryArg (c : Char) (rest : List Char) : Option (Nat × ArgsType) :=
  if c = '\\' then
    match rest with
    | '[' :: '[' :: '#' :: r =>
      (lastCloseOnLine ']' r).map (fun k => (5 + k, ArgsType.Escaped))
    | _ => none
  else if c = '[' then
    match rest with
    | '[' :: r => (afterDoubleBracket r).map (fun m => (1 + m.1, m.2))
    | _ => none
  else none

/-- Scanning loop of `captures_iter` over `ARGS` (`extract_args` +
`ArgsIter`). -/
def scanArgs : Nat → List Char → Nat → List Args
  | 0, _, _ => []
  | _ + 1, [], _ => []
  | fuel + 1, c :: rest, i =>
    match tryArg c rest with
    | some (extra, at') =>
      { start_index := i, end_index := i + 1 + extra, args_type := at',
        args_text := (c :: rest).take (1 + extra) } ::
        scanArgs fuel (rest.drop extra) (i + 1 + extra)
    | none => scanArgs fuel rest (i + 1)

/-- `extract_args` of links.rs. -/
def extract_args (t : List Char) : List Args :=
  scanArgs t.length t 0

/-- The text emitted for one placeholder by the loop body of
`Args::replace`: escaped placeholders lose the escape character, a plain
placeholder becomes the mapped value or nothing, a defaulted placeholder
becomes the mapped value or its default text. -/
def argPiece (all_args : ArgsMap) (a : Args) : List Char :=
  match a.args_type with
  | ArgsType.Escaped => a.args_text.drop 1
  | ArgsType.Plain name =>
    match lookupLast all_args name with
    | none => []
    | some v => v
  | ArgsType.Default name dft =>
    match lookupLast all_args name with
    | none => dft
    | some v => v

/-- The accumulator loop of `Args::replace`: copy the text between the
previous end and the current placeholder, emit the piece, advance. -/
def argsLoop (t : List Char) (all_args : ArgsMap) :
    List Args → Nat → List Char → List Char
  | [], prevEnd, acc => acc ++ t.drop prevEnd
  | a :: rest, prevEnd, acc =>
    argsLoop t all_args rest a.end_index
      (acc ++ strSlice t prevEnd a.start_index ++ argPiece all_args a)

/-- `Args::replace` of links.rs. -/
def Args.replace (contents : List Char) (all_args : ArgsMap) : List Char :=
  argsLoop contents all_args (extract_args contents) 0 []

/-! ## The expansion orchestrator -/

/-- `MAX_LINK_NESTED_DEPTH` of lib.rs. -/
def MAX_LINK_NESTED_DEPTH : Nat := 10

/-- `Link::replace_args` of links.rs: an escaped link is its text without
the escape character (no provider access); a template link resolves its
path against the base directory, reads it through the provider, and
substitutes the parsed arguments into the content.  `none` is the `Err`
of the Rust function (a failed read). -/
def Link.replace_args (l : Link) (base : PathS) (provider : Provider) :
    Option (List Char) :=
  match l.link_type with
  | LinkType.Escaped => some (l.link_text.drop 1)
  | LinkType.Template p =>
    match provider (pathJoin base p) with
    | some contents => some (Args.replace contents l.args)
    | none => none

/-- `LinkType::relative_path` of links.rs.  The OUTER `none` models the
panic of `.expect("Included file should not be /")` when the resolved
path has no parent; `some none` is the Rust `None` (escaped link), and
`some (some d)` the Rust `Some(d)`. -/
def LinkType.relative_path (lt : LinkType) (base : PathS) :
    Option (Option PathS) :=
  match lt with
  | LinkType.Escaped => some none
  | LinkType.Template p =>
    match pathParent (pathJoin base p) with
    | some d => some (some d)
    | none => none

/-- The `for link in extract_template_links` loop of `replace_template`
(lib.rs), with the recursive call abstracted as `recurOpt`:
`recurOpt = some recur` corresponds to `depth < MAX_LINK_NESTED_DEPTH`
(where `recur` is the recursive expansion at `depth + 1`), and
`recurOpt = none` to the depth-exceeded branch that only logs.  The
result `none` models a panic escaping the loop. -/
def processLinks (t : List Char) (provider : Provider) (base : PathS)
    (recurOpt : Option (PathS → List Char → Option (List Char))) :
    List Link → Nat → List Char → Option (List Char)
  | [], prevEnd, acc => some (acc ++ t.drop prevEnd)
  | l :: rest, prevEnd, acc =>
    let acc1 := acc ++ strSlice t prevEnd l.start_index
    match Link.replace_args l base provider with
    | some newContent =>
      match recurOpt with
      | some recur =>
        match LinkType.relative_path l.link_type base with
        | none => none
        | some (some rp) =>
          match recur rp newContent with
          | none => none
          | some expanded =>
            processLinks t provider base recurOpt rest l.end_index (acc1 ++ expanded)
        | some none =>
          processLinks t provider base recurOpt rest l.end_index (acc1 ++ newContent)
      | none => processLinks t provider base recurOpt rest l.end_index acc1
    | none => processLinks t provider base recurOpt rest l.start_index acc1

/-- Fuelled form of `replace_template` of lib.rs.  The Rust function
recurses only under the guard `depth < MAX_LINK_NESTED_DEPTH`, so the
fuel `MAX_LINK_NESTED_DEPTH - depth` supplied by the wrapper below always
suffices; the fuel-exhausted inner value is never reached from the
wrapper. -/
def replace_templateF (fuel : Nat) (t : List Char) (provider : Provider)
    (base src : PathS) (depth : Nat) : Option (List Char) :=
  processLinks t provider base
    (if depth < MAX_LINK_NESTED_DEPTH then
      match fuel with
      | 0 => some (fun _ _ => none)
      | f + 1 => some (fun nb c => replace_templateF f c provider nb src (depth + 1))
    else none)
    (extract_template_links t) 0 []

/-- `replace_template` of lib.rs.  `some out` is the returned string;
`none` models a panic escaping the call. -/
def replace_template (t : List Char) (provider : Provider) (base src : PathS)
    (depth : Nat) : Option (List Char) :=
  replace_templateF (MAX_LINK_NESTED_DEPTH - depth) t provider base src depth

/-- The recursion actually wired into `replace_template`: available only
below the depth bound, and then one level deeper with the new base
directory. -/
def recurOf (provider : Provider) (src : PathS) (depth : Nat) :
    Option (PathS → List Char → Option (List Char)) :=
  if depth < MAX_LINK_NESTED_DEPTH then
    some (fun nb c => replace_template c provider nb src (depth + 1))
  else none

/-- The contribution of one link to the output of `replace_template`
(factoring of the loop body of `processLinks`): a failed read contributes
the original marker text (the cursor is reset); at exceeded depth a
successful link contributes nothing; otherwise an escaped link
contributes its de-escaped text and a template link the recursive
expansion of its substituted content; `none` models the panic. -/
def linkPiece (provider : Provider) (base : PathS)
    (recurOpt : Option (PathS → List Char → Option (List Char))) (l : Link) :
    Option (List Char) :=
  match Link.replace_args l base provider with
  | none => some l.link_text
  | some newContent =>
    match recurOpt with
    | none => some []
    | some recur =>
      match LinkType.relative_path l.link_type base with
      | none => none
      | some (some rp) => recur rp newContent
      | some none => some newContent

/-! ## Spec-side assembly definitions

`assembleSpec` follows the specification sentence behind claim C1: the
output is the concatenation, in document order, of the literal text
between consecutive invocation spans and, for each invocation, its
expansion or fallback text; the text outside the matched spans is taken
verbatim from the original. -/

/-- Concatenation, in document order, of the between-span literal text and
the per-invocation pieces (spec wording of claim C1). -/
def assembleSpec (t : List Char) (piece : Link → Option (List Char)) :
    List Link → Nat → Option (List Char)
  | [], cursor => some (strSlice t cursor t.length)
  | l :: rest, cursor =>
    match piece l, assembleSpec t piece rest l.end_index with
    | some p, some tail => some (strSlice t cursor l.start_index ++ p ++ tail)
    | _, _ => none

/-- Spec wording of claim C6 for one placeholder: a plain placeholder
emits the mapped value or nothing, a defaulted placeholder emits the
mapped value or its default text (a supplied argument overrides the
default); an escaped placeholder loses its escape character. -/
def argPieceSpec (all_args : ArgsMap) (a : Args) : List Char :=
  match a.args_type with
  | ArgsType.Escaped => a.args_text.drop 1
  | ArgsType.Plain name => (lookupLast all_args name).getD []
  | ArgsType.Default name dft => (lookupLast all_args name).getD dft

/-- Concatenation, in document order, of the between-span literal text and
the per-placeholder pieces (spec wording of claim C6). -/
def argsAssembleSpec (t : List Char) (all_args : ArgsMap) :
    List Args → Nat → List Char
  | [], cursor => strSlice t cursor t.length
  | a :: rest, cursor =>
    strSlice t cursor a.start_index ++ argPieceSpec all_args a ++
      argsAssembleSpec t all_args rest a.end_index

/-- Spec side of the amended claim C8: every line is trimmed; a non-empty
trimmed line with an `=` yields the pair whose name is the left side of
the first `=` (trimmed again) and whose value is the right side OF THE
TRIMMED LINE, so whitespace adjacent to the line terminator is removed
while interior whitespace and whitespace just after the `=` are kept. -/
def parseMultilineAmended (raw : List Char) : ArgsMap :=
  (splitOnLB raw).filterMap (fun line =>
    let tl := trimChars line
    if tl.isEmpty then none
    else if '=' ∈ tl then
      some (trimChars (tl.takeWhile (fun c => c ≠ '=')),
            (tl.dropWhile (fun c => c ≠ '=')).drop 1)
    else none)

/-! ## Slice lemmas -/

theorem strSlice_append (t : List Char) {a b c : Nat} (hab : a ≤ b) (hbc : b ≤ c) :
    strSlice t a b ++ strSlice t b c = strSlice t a c := by
  unfold strSlice
  have h1 : t.drop b = (t.drop a).drop (b - a) := by
    rw [List.drop_drop]; congr 1; omega
  rw [h1, ← List.take_add]
  congr 1
  omega

theorem strSlice_to_length (t : List Char) (a : Nat) :
    strSlice t a t.length = t.drop a := by
  unfold strSlice
  apply List.take_of_length_le
  simp

theorem drop_eq_strSlice_append (t : List Char) {a b : Nat} (hab : a ≤ b) :
    t.drop a = strSlice t a b ++ t.drop b := by
  conv_lhs => rw [← List.take_append_drop (b - a) (t.drop a)]
  unfold strSlice
  rw [List.drop_drop]
  congr 2
  omega

/-! ## Length bounds of the matchers -/

theorem take_two_len {l : List Char} {x y : Char} (h : l.take 2 = [x, y]) :
    2 ≤ l.length := by
  have := congrArg List.length h
  simp [List.length_take] at this
  omega

theorem takeWhile_len_le (p : Char → Bool) (s : List Char) :
    (s.takeWhile p).length ≤ s.length :=
  (List.takeWhile_prefix p).length_le

theorem lastCloseOnLine_le (cl : Char) :
    ∀ (s : List Char) (k : Nat), lastCloseOnLine cl s = some k → k + 2 ≤ s.length := by
  intro s
  induction s with
  | nil => intro k h; simp [lastCloseOnLine] at h
  | cons c rest ih =>
    intro k h
    simp only [lastCloseOnLine] at h
    split at h
    · exact absurd h (by simp)
    · split at h
      case h_1 k' heq =>
        have := ih k' heq
        simp only [Option.some.injEq] at h
        simp [← h]
        omega
      case h_2 =>
        split at h
        case isTrue hc =>
          simp only [Option.some.injEq] at h
          have hne : rest ≠ [] := by
            intro he
            rw [he] at hc
            simp at hc
          have : 1 ≤ rest.length := by
            cases rest with
            | nil => exact absurd rfl hne
            | cons _ _ => simp
          simp [← h]
          omega
        case isFalse => exact absurd h (by simp)

theorem closeTail_le (cl : Char) (r4 : List Char) (rlen : Nat)
    {con : Nat} {tok : List Char}
    (h : closeTail cl r4 rlen = some (con, tok)) : con ≤ r4.length := by
  simp only [closeTail] at h
  split at h
  case isTrue hp =>
    simp only [Option.some.injEq, Prod.mk.injEq] at h
    have h2 := take_two_len hp
    simp [List.length_drop] at h2
    omega
  case isFalse =>
    split at h
    case h_1 k heq =>
      split at h
      case isTrue hk =>
        simp only [Option.some.injEq, Prod.mk.injEq] at h
        have := lastCloseOnLine_le cl (r4.take rlen) k heq
        simp [List.length_take] at this
        omega
      case isFalse => exact absurd h (by simp)
    case h_2 => exact absurd h (by simp)

theorem argsTail_le (cl : Char) (r4 : List Char) (rlen : Nat)
    {con : Nat} {tok raw : List Char}
    (h : argsTail cl r4 rlen = some (con, tok, raw)) : con ≤ r4.length := by
  simp only [argsTail] at h
  split at h
  case isTrue => exact absurd h (by simp)
  case isFalse hw =>
    split at h
    case isTrue hq =>
      split at h
      case isTrue hp =>
        simp only [Option.some.injEq, Prod.mk.injEq] at h
        obtain ⟨hcon, -, -⟩ := h
        have h2 := take_two_len hp
        rw [List.length_drop] at h2
        have h3 : ((r4.drop rlen).drop (wsLen (r4.drop rlen))).length
            = r4.length - rlen - wsLen (r4.drop rlen) := by
          rw [List.length_drop, List.length_drop]
        omega
      case isFalse => exact absurd h (by simp)
    case isFalse hq =>
      split at h
      case isTrue hp =>
        rw [Bool.and_eq_true] at hp
        obtain ⟨-, hp2⟩ := hp
        rw [decide_eq_true_eq] at hp2
        have h2 := take_two_len hp2
        simp only [Option.some.injEq, Prod.mk.injEq] at h
        obtain ⟨hcon, -, -⟩ := h
        have h3 : ((r4.drop rlen).drop (wsLen (r4.drop rlen))).length
            = r4.length - rlen - wsLen (r4.drop rlen) := by
          rw [List.length_drop, List.length_drop]
        omega
      case isFalse => exact absurd h (by simp)

theorem afterDoubleOpen_le (r : List Char) {con : Nat} {lt : LinkType}
    {a : ArgsMap} (h : afterDoubleOpen r = some (con, lt, a)) : con ≤ r.length := by
  simp only [afterDoubleOpen] at h
  split at h
  case h_1 r2 heq =>
    have hw1 : wsLen r ≤ r.length := takeWhile_len_le _ _
    have hlen : r.length - wsLen r = r2.length + 1 := by
      have := congrArg List.length heq
      simpa using this
    split at h
    case isTrue htm =>
      have h8 : 8 ≤ r2.length := by
        have := congrArg List.length htm
        simp [List.length_take] at this
        omega
      have hw2 : wsLen (r2.drop 8) ≤ r2.length - 8 := by
        have := takeWhile_len_le isWs (r2.drop 8)
        simpa using this
      split at h
      case isTrue => exact absurd h (by simp)
      case isFalse =>
        split at h
        case isTrue => exact absurd h (by simp)
        case isFalse =>
          have hr4 : ((r2.drop 8).drop (wsLen (r2.drop 8))).length
              = r2.length - 8 - wsLen (r2.drop 8) := by
            rw [List.length_drop, List.length_drop]
          split at h
          case h_1 con' path heq2 =>
            have := closeTail_le _ _ _ heq2
            simp only [Option.some.injEq, Prod.mk.injEq] at h
            obtain ⟨hcon, -, -⟩ := h
            omega
          case h_2 =>
            split at h
            case h_1 con' path raw heq3 =>
              have := argsTail_le _ _ _ heq3
              simp only [Option.some.injEq, Prod.mk.injEq] at h
              obtain ⟨hcon, -, -⟩ := h
              omega
            case h_2 => exact absurd h (by simp)
    case isFalse => exact absurd h (by simp)
  case h_2 => exact absurd h (by simp)

theorem afterDoubleBracket_le (r : List Char) {con : Nat} {at' : ArgsType}
    (h : afterDoubleBracket r = some (con, at')) : con ≤ r.length := by
  simp only [afterDoubleBracket] at h
  split at h
  case h_1 r2 heq =>
    have hw1 : wsLen r ≤ r.length := takeWhile_len_le _ _
    have hlen : r.length - wsLen r = r2.length + 1 := by
      have := congrArg List.length heq
      simpa using this
    split at h
    case isTrue => exact absurd h (by simp)
    case isFalse =>
      split at h
      case h_1 con' name heq2 =>
        have := closeTail_le _ _ _ heq2
        simp only [Option.some.injEq, Prod.mk.injEq] at h
        obtain ⟨hcon, -⟩ := h
        omega
      case h_2 =>
        split at h
        case h_1 con' name dft heq3 =>
          have := argsTail_le _ _ _ heq3
          simp only [Option.some.injEq, Prod.mk.injEq] at h
          obtain ⟨hcon, -⟩ := h
          omega
        case h_2 => exact absurd h (by simp)
  case h_2 => exact absurd h (by simp)

theorem tryLink_le (c : Char) (rest : List Char) {extra : Nat} {lt : LinkType}
    {a : ArgsMap} (h : tryLink c rest = some (extra, lt, a)) :
    extra ≤ rest.length := by
  simp only [tryLink] at h
  split at h
  · split at h
    case h_1 r =>
      split at h
      case h_1 k heq =>
        have := lastCloseOnLine_le _ _ _ heq
        simp only [Option.some.injEq, Prod.mk.injEq] at h
        obtain ⟨hcon, -, -⟩ := h
        simp
        omega
      case h_2 => exact absurd h (by simp)
    case h_2 => exact absurd h (by simp)
  · split at h
    · split at h
      case h_1 r =>
        simp only [Option.map_eq_some'] at h
        obtain ⟨⟨con, lt', a'⟩, hsome, heq⟩ := h
        have := afterDoubleOpen_le _ hsome
        simp only [Prod.mk.injEq] at heq
        obtain ⟨hcon, -, -⟩ := heq
        simp
        omega
      case h_2 => exact absurd h (by simp)
    · exact absurd h (by simp)

theorem tryArg_le (c : Char) (rest : List Char) {extra : Nat} {at' : ArgsType}
    (h : tryArg c rest = some (extra, at')) : extra ≤ rest.length := by
  simp only [tryArg] at h
  split at h
  · split at h
    case h_1 r =>
      simp only [Option.map_eq_some'] at h
      obtain ⟨k, hsome, heq⟩ := h
      have := lastCloseOnLine_le _ _ _ hsome
      simp only [Prod.mk.injEq] at heq
      obtain ⟨hcon, -⟩ := heq
      simp
      omega
    case h_2 => exact absurd h (by simp)
  · split at h
    · split at h
      case h_1 r =>
        simp only [Option.map_eq_some'] at h
        obtain ⟨⟨con, at''⟩, hsome, heq⟩ := h
        have := afterDoubleBracket_le _ hsome
        simp only [Prod.mk.injEq] at heq
        obtain ⟨hcon, -⟩ := heq
        simp
        omega
      case h_2 => exact absurd h (by simp)
    · exact absurd h (by simp)

/-! ## Span invariants of the scanners -/

theorem drop_cons_succ {t : List Char} {i : Nat} {c : Char} {rest : List Char}
    (h : t.drop i = c :: rest) : t.drop (i + 1) = rest := by
  have h2 : t.drop (i + 1) = (t.drop i).drop 1 := by
    rw [List.drop_drop, Nat.add_comm]
  rw [h2, h]
  rfl

theorem lt_len_of_drop_cons {t : List Char} {i : Nat} {c : Char} {rest : List Char}
    (h : t.drop i = c :: rest) : i < t.length := by
  by_contra hle
  push_neg at hle
  rw [List.drop_of_length_le hle] at h
  exact absurd h (by simp)

theorem len_of_drop_cons {t : List Char} {i : Nat} {c : Char} {rest : List Char}
    (h : t.drop i = c :: rest) : t.length = i + rest.length + 1 := by
  have h1 := congrArg List.length h
  have h2 := lt_len_of_drop_cons h
  simp at h1
  omega

/-- Ordering/span invariant of a scanned link list, starting at cursor
`lo`: spans are ordered left to right, non-overlapping, inside the text,
and each `link_text` is the original text of its span. -/
def LinkChain (t : List Char) : Nat → List Link → Prop
  | lo, [] => lo ≤ t.length
  | lo, l :: rest =>
    lo ≤ l.start_index ∧ l.start_index ≤ l.end_index ∧ l.end_index ≤ t.length ∧
    l.link_text = strSlice t l.start_index l.end_index ∧ LinkChain t l.end_index rest

/-- The same invariant for scanned placeholders. -/
def ArgsChain (t : List Char) : Nat → List Args → Prop
  | lo, [] => lo ≤ t.length
  | lo, a :: rest =>
    lo ≤ a.start_index ∧ a.start_index ≤ a.end_index ∧ a.end_index ≤ t.length ∧
    a.args_text = strSlice t a.start_index a.end_index ∧ ArgsChain t a.end_index rest

theorem LinkChain_weaken {t : List Char} :
    ∀ {ls : List Link} {lo hi : Nat}, LinkChain t hi ls → lo ≤ hi → LinkChain t lo ls := by
  intro ls
  cases ls with
  | nil => intro lo hi h hle; exact le_trans hle h
  | cons l rest =>
    intro lo hi h hle
    obtain ⟨h1, h2⟩ := h
    exact ⟨le_trans hle h1, h2⟩

theorem ArgsChain_weaken {t : List Char} :
    ∀ {ls : List Args} {lo hi : Nat}, ArgsChain t hi ls → lo ≤ hi → ArgsChain t lo ls := by
  intro ls
  cases ls with
  | nil => intro lo hi h hle; exact le_trans hle h
  | cons a rest =>
    intro lo hi h hle
    obtain ⟨h1, h2⟩ := h
    exact ⟨le_trans hle h1, h2⟩

theorem scanLinks_chain (t : List Char) :
    ∀ (fuel : Nat) (s : List Char) (i : Nat), s = t.drop i → i ≤ t.length →
      LinkChain t i (scanLinks fuel s i) := by
  intro fuel
  induction fuel with
  | zero => intro s i _ hi; exact hi
  | succ fuel ih =>
    intro s i hs hi
    cases s with
    | nil => exact hi
    | cons c rest =>
      simp only [scanLinks]
      have hrest : t.drop (i + 1) = rest := drop_cons_succ hs.symm
      have hltlen : t.length = i + rest.length + 1 := len_of_drop_cons hs.symm
      cases htl : tryLink c rest with
      | none =>
        exact LinkChain_weaken (ih rest (i + 1) hrest.symm (by omega)) (by omega)
      | some m =>
        obtain ⟨extra, lt, a⟩ := m
        have hext := tryLink_le c rest htl
        have hend : i + 1 + extra ≤ t.length := by omega
        have htext : (c :: rest).take (1 + extra) = strSlice t i (i + 1 + extra) := by
          unfold strSlice
          rw [← hs]
          congr 1
          omega
        have hrec : LinkChain t (i + 1 + extra)
            (scanLinks fuel (rest.drop extra) (i + 1 + extra)) := by
          have hdrop : t.drop (i + 1 + extra) = rest.drop extra := by
            rw [← hrest, List.drop_drop, Nat.add_comm]
          exact ih (rest.drop extra) (i + 1 + extra) hdrop.symm hend
        exact ⟨le_refl i, show i ≤ i + 1 + extra by omega, hend, htext, hrec⟩

theorem scanArgs_chain (t : List Char) :
    ∀ (fuel : Nat) (s : List Char) (i : Nat), s = t.drop i → i ≤ t.length →
      ArgsChain t i (scanArgs fuel s i) := by
  intro fuel
  induction fuel with
  | zero => intro s i _ hi; exact hi
  | succ fuel ih =>
    intro s i hs hi
    cases s with
    | nil => exact hi
    | cons c rest =>
      simp only [scanArgs]
      have hrest : t.drop (i + 1) = rest := drop_cons_succ hs.symm
      have hltlen : t.length = i + rest.length + 1 := len_of_drop_cons hs.symm
      cases hta : tryArg c rest with
      | none =>
        exact ArgsChain_weaken (ih rest (i + 1) hrest.symm (by omega)) (by omega)
      | some m =>
        obtain ⟨extra, at'⟩ := m
        have hext := tryArg_le c rest hta
        have hend : i + 1 + extra ≤ t.length := by omega
        have htext : (c :: rest).take (1 + extra) = strSlice t i (i + 1 + extra) := by
          unfold strSlice
          rw [← hs]
          congr 1
          omega
        have hrec : ArgsChain t (i + 1 + extra)
            (scanArgs fuel (rest.drop extra) (i + 1 + extra)) := by
          have hdrop : t.drop (i + 1 + extra) = rest.drop extra := by
            rw [← hrest, List.drop_drop, Nat.add_comm]
          exact ih (rest.drop extra) (i + 1 + extra) hdrop.symm hend
        exact ⟨le_refl i, show i ≤ i + 1 + extra by omega, hend, htext, hrec⟩

theorem extract_template_links_chain (t : List Char) :
    LinkChain t 0 (extract_template_links t) :=
  scanLinks_chain t t.length t 0 rfl (Nat.zero_le _)

theorem extract_args_chain (t : List Char) :
    ArgsChain t 0 (extract_args t) :=
  scanArgs_chain t t.length t 0 rfl (Nat.zero_le _)

/-- Every link produced by the scanner comes from a `tryLink` match at its
start position on the corresponding suffix of the original text. -/
theorem scanLinks_sound (t : List Char) :
    ∀ (fuel : Nat) (s : List Char) (i : Nat), s = t.drop i →
      ∀ l ∈ scanLinks fuel s i,
        ∃ c rest extra, t.drop l.start_index = c :: rest ∧
          tryLink c rest = some (extra, l.link_type, l.args) ∧
          l.end_index = l.start_index + 1 + extra ∧
          l.link_text = (c :: rest).take (1 + extra) := by
  intro fuel
  induction fuel with
  | zero => intro s i _ l hl; simp [scanLinks] at hl
  | succ fuel ih =>
    intro s i hs l hl
    cases s with
    | nil => simp [scanLinks] at hl
    | cons c rest =>
      simp only [scanLinks] at hl
      have hrest : t.drop (i + 1) = rest := drop_cons_succ hs.symm
      cases htl : tryLink c rest with
      | none =>
        rw [htl] at hl
        exact ih rest (i + 1) hrest.symm l hl
      | some m =>
        obtain ⟨extra, lt, a⟩ := m
        rw [htl] at hl
        rcases List.mem_cons.mp hl with heq | hmem
        · subst heq
          exact ⟨c, rest, extra, hs ▸ rfl, htl, rfl, rfl⟩
        · have hdrop : t.drop (i + 1 + extra) = rest.drop extra := by
            rw [← hrest, List.drop_drop, Nat.add_comm]
          exact ih (rest.drop extra) (i + 1 + extra) hdrop.symm l hmem

theorem extract_template_links_sound (t : List Char) :
    ∀ l ∈ extract_template_links t,
      ∃ c rest extra, t.drop l.start_index = c :: rest ∧
        tryLink c rest = some (extra, l.link_type, l.args) ∧
        l.end_index = l.start_index + 1 + extra ∧
        l.link_text = (c :: rest).take (1 + extra) :=
  scanLinks_sound t t.length t 0 rfl

/-! ## Decomposition of the two accumulator loops -/

theorem argPiece_eq_spec (all_args : ArgsMap) (a : Args) :
    argPiece all_args a = argPieceSpec all_args a := by
  obtain ⟨s, e, at', tx⟩ := a
  cases at' with
  | Escaped => rfl
  | Plain name =>
    cases hl : lookupLast all_args name <;> simp [argPiece, argPieceSpec, hl]
  | Default name dft =>
    cases hl : lookupLast all_args name <;> simp [argPiece, argPieceSpec, hl]

theorem argsLoop_eq (t : List Char) (all_args : ArgsMap) :
    ∀ (ls : List Args) (prevEnd : Nat) (acc : List Char),
      ArgsChain t prevEnd ls →
      argsLoop t all_args ls prevEnd acc
        = acc ++ argsAssembleSpec t all_args ls prevEnd := by
  intro ls
  induction ls with
  | nil =>
    intro prevEnd acc h
    simp only [argsLoop, argsAssembleSpec]
    rw [strSlice_to_length]
  | cons a rest ih =>
    intro prevEnd acc h
    obtain ⟨h1, h2, h3, h4, h5⟩ := h
    simp only [argsLoop, argsAssembleSpec]
    rw [ih a.end_index _ h5, argPiece_eq_spec]
    simp [List.append_assoc]

/-- `Args::replace` satisfies the spec-side assembly over its scanned
placeholders. -/
theorem Args_replace_eq_spec (contents : List Char) (all_args : ArgsMap) :
    Args.replace contents all_args
      = argsAssembleSpec contents all_args (extract_args contents) 0 := by
  unfold Args.replace
  rw [argsLoop_eq contents all_args (extract_args contents) 0 []
    (extract_args_chain contents)]
  rfl

theorem assembleSpec_shift (t : List Char) (piece : Link → Option (List Char)) :
    ∀ (rest : List Link) (cursor cursor' : Nat), cursor ≤ cursor' →
      LinkChain t cursor' rest →
      assembleSpec t piece rest cursor
        = (assembleSpec t piece rest cursor').map
            (fun tail => strSlice t cursor cursor' ++ tail) := by
  intro rest cursor cursor' hle h
  cases rest with
  | nil =>
    simp only [assembleSpec, Option.map_some']
    rw [strSlice_append t hle h]
  | cons r rest' =>
    obtain ⟨g1, g2, g3, g4, g5⟩ := h
    simp only [assembleSpec]
    cases hp : piece r with
    | none => rfl
    | some p =>
      cases ha : assembleSpec t piece rest' r.end_index with
      | none => rfl
      | some tail =>
        simp only [Option.map_some', Option.some.injEq]
        rw [← strSlice_append t hle g1]
        simp [List.append_assoc]

theorem processLinks_eq (t : List Char) (provider : Provider) (base : PathS)
    (recurOpt : Option (PathS → List Char → Option (List Char))) :
    ∀ (links : List Link) (prevEnd : Nat) (acc : List Char),
      LinkChain t prevEnd links →
      processLinks t provider base recurOpt links prevEnd acc
        = (assembleSpec t (linkPiece provider base recurOpt) links prevEnd).map
            (fun out => acc ++ out) := by
  intro links
  induction links with
  | nil =>
    intro prevEnd acc h
    simp only [processLinks, assembleSpec, Option.map_some']
    rw [strSlice_to_length]
  | cons l rest ih =>
    intro prevEnd acc h
    obtain ⟨h1, h2, h3, h4, h5⟩ := h
    cases hra : Link.replace_args l base provider with
    | none =>
      have hshift := assembleSpec_shift t (linkPiece provider base recurOpt) rest
        l.start_index l.end_index h2 h5
      simp only [processLinks, assembleSpec, linkPiece, hra]
      rw [ih l.start_index (acc ++ strSlice t prevEnd l.start_index)
        (LinkChain_weaken h5 h2), hshift, ← h4]
      cases assembleSpec t (linkPiece provider base recurOpt) rest l.end_index with
      | none => rfl
      | some tail => simp [List.append_assoc]
    | some newContent =>
      cases recurOpt with
      | none =>
        simp only [processLinks, assembleSpec, linkPiece, hra]
        rw [ih l.end_index (acc ++ strSlice t prevEnd l.start_index) h5]
        cases assembleSpec t (linkPiece provider base none) rest l.end_index with
        | none => rfl
        | some tail => simp [List.append_assoc]
      | some recur =>
        cases hrp : LinkType.relative_path l.link_type base with
        | none =>
          simp only [processLinks, assembleSpec, linkPiece, hra, hrp]
          rfl
        | some o =>
          cases o with
          | none =>
            simp only [processLinks, assembleSpec, linkPiece, hra, hrp]
            rw [ih l.end_index
              (acc ++ strSlice t prevEnd l.start_index ++ newContent) h5]
            cases assembleSpec t (linkPiece provider base (some recur)) rest
                l.end_index with
            | none => rfl
            | some tail => simp [List.append_assoc]
          | some rp =>
            cases hrec : recur rp newContent with
            | none =>
              simp only [processLinks, assembleSpec, linkPiece, hra, hrp, hrec]
              rfl
            | some expanded =>
              simp only [processLinks, assembleSpec, linkPiece, hra, hrp, hrec]
              rw [ih l.end_index
                (acc ++ strSlice t prevEnd l.start_index ++ expanded) h5]
              cases assembleSpec t (linkPiece provider base (some recur)) rest
                  l.end_index with
              | none => rfl
              | some tail => simp [List.append_assoc]

/-! ## Wiring the orchestrator to the decomposition -/

theorem replace_template_def (t : List Char) (provider : Provider)
    (base src : PathS) (depth : Nat) :
    replace_template t provider base src depth
      = processLinks t provider base (recurOf provider src depth)
          (extract_template_links t) 0 [] := by
  unfold replace_template recurOf
  by_cases hd : depth < MAX_LINK_NESTED_DEPTH
  · cases hf : MAX_LINK_NESTED_DEPTH - depth with
    | zero =>
      exfalso
      unfold MAX_LINK_NESTED_DEPTH at hd hf
      omega
    | succ f =>
      unfold replace_templateF
      simp only [if_pos hd]
      have harg : (fun nb c => replace_templateF f c provider nb src (depth + 1))
          = (fun nb c => replace_template c provider nb src (depth + 1)) := by
        funext nb c
        unfold replace_template
        have hff : MAX_LINK_NESTED_DEPTH - (depth + 1) = f := by
          unfold MAX_LINK_NESTED_DEPTH at hf ⊢
          omega
        rw [hff]
      show processLinks t provider base
          (some (fun nb c => replace_templateF f c provider nb src (depth + 1)))
          (extract_template_links t) 0 []
        = processLinks t provider base
          (some (fun nb c => replace_template c provider nb src (depth + 1)))
          (extract_template_links t) 0 []
      rw [harg]
  · unfold replace_templateF
    simp only [if_neg hd]

theorem recurOf_of_lt {depth : Nat} (provider : Provider) (src : PathS)
    (h : depth < MAX_LINK_NESTED_DEPTH) :
    recurOf provider src depth
      = some (fun nb c => replace_template c provider nb src (depth + 1)) := by
  unfold recurOf
  rw [if_pos h]

theorem recurOf_of_ge {depth : Nat} (provider : Provider) (src : PathS)
    (h : MAX_LINK_NESTED_DEPTH ≤ depth) :
    recurOf provider src depth = none := by
  unfold recurOf
  rw [if_neg (by omega)]

/-- Master decomposition: the output of `replace_template` is the
spec-side assembly of the scanned links with the per-link pieces. -/
theorem replace_template_assemble (t : List Char) (provider : Provider)
    (base src : PathS) (depth : Nat) :
    replace_template t provider base src depth
      = assembleSpec t (linkPiece provider base (recurOf provider src depth))
          (extract_template_links t) 0 := by
  rw [replace_template_def,
    processLinks_eq t provider base (recurOf provider src depth)
      (extract_template_links t) 0 [] (extract_template_links_chain t)]
  cases assembleSpec t (linkPiece provider base (recurOf provider src depth))
      (extract_template_links t) 0 with
  | none => rfl
  | some out => simp

/-! ## Per-link piece equations and derived facts -/

theorem linkPiece_escaped (provider : Provider) (base : PathS)
    (recur : PathS → List Char → Option (List Char)) (l : Link)
    (he : l.link_type = LinkType.Escaped) :
    linkPiece provider base (some recur) l = some (l.link_text.drop 1) := by
  simp only [linkPiece, Link.replace_args, LinkType.relative_path, he]

theorem linkPiece_readfail (provider : Provider) (base : PathS)
    (recurOpt : Option (PathS → List Char → Option (List Char))) (l : Link)
    (p : PathS) (hT : l.link_type = LinkType.Template p)
    (hread : provider (pathJoin base p) = none) :
    linkPiece provider base recurOpt l = some l.link_text := by
  simp only [linkPiece, Link.replace_args, hT, hread]

theorem linkPiece_depth_exceeded (provider : Provider) (base : PathS)
    (l : Link) (newContent : List Char)
    (hok : Link.replace_args l base provider = some newContent) :
    linkPiece provider base none l = some [] := by
  simp only [linkPiece, hok]

theorem linkPiece_template_recur (provider : Provider) (base : PathS)
    (recur : PathS → List Char → Option (List Char)) (l : Link)
    (p : PathS) (contents : List Char) (nb : PathS)
    (hT : l.link_type = LinkType.Template p)
    (hread : provider (pathJoin base p) = some contents)
    (hpar : pathParent (pathJoin base p) = some nb) :
    linkPiece provider base (some recur) l
      = recur nb (Args.replace contents l.args) := by
  simp only [linkPiece, Link.replace_args, LinkType.relative_path, hT, hread, hpar]

/-- When every piece is the link text itself, the assembly restores the
original text from the cursor on. -/
theorem assembleSpec_id (t : List Char) (piece : Link → Option (List Char)) :
    ∀ (links : List Link) (cursor : Nat), LinkChain t cursor links →
      (∀ l ∈ links, piece l = some l.link_text) →
      assembleSpec t piece links cursor = some (t.drop cursor) := by
  intro links
  induction links with
  | nil =>
    intro cursor h _
    simp only [assembleSpec, Option.some.injEq]
    exact strSlice_to_length t cursor
  | cons l rest ih =>
    intro cursor h hp
    obtain ⟨h1, h2, h3, h4, h5⟩ := h
    have hhead : piece l = some l.link_text := hp l (List.mem_cons_self l rest)
    have htail := ih l.end_index h5 (fun x hx => hp x (List.mem_cons_of_mem l hx))
    simp only [assembleSpec, hhead, htail, Option.some.injEq]
    rw [drop_eq_strSlice_append t h1, drop_eq_strSlice_append t h2, ← h4]
    simp [List.append_assoc]

/-- Whether the file read of a link fails: `false` for escaped links,
otherwise the provider has no content for the resolved path. -/
def readFailsB (provider : Provider) (base : PathS) (l : Link) : Bool :=
  match l.link_type with
  | LinkType.Escaped => false
  | LinkType.Template p => (provider (pathJoin base p)).isNone

/-- When every scanned link is a template link whose read fails, the
document expands to itself: each marker is re-emitted verbatim in place
and all other text is untouched. -/
theorem replace_template_id_of_fails (t : List Char) (provider : Provider)
    (base src : PathS) (depth : Nat)
    (hfail : ∀ l ∈ extract_template_links t, readFailsB provider base l = true) :
    replace_template t provider base src depth = some t := by
  rw [replace_template_assemble]
  have hid := assembleSpec_id t
    (linkPiece provider base (recurOf provider src depth))
    (extract_template_links t) 0 (extract_template_links_chain t) ?_
  · rw [hid, List.drop_zero]
  · intro l hl
    have hf := hfail l hl
    unfold readFailsB at hf
    cases hT : l.link_type with
    | Escaped => rw [hT] at hf; simp at hf
    | Template p =>
      rw [hT] at hf
      simp only [Option.isNone_iff_eq_none] at hf
      exact linkPiece_readfail provider base _ l p hT hf

/-! ## Absence of panics under a root-free provider -/

theorem processLinks_total (t : List Char) (provider : Provider) (base : PathS)
    (recurOpt : Option (PathS → List Char → Option (List Char)))
    (hprov : ∀ p c, provider p = some c → (pathParent p).isSome)
    (hrec : ∀ recur, recurOpt = some recur → ∀ nb c, (recur nb c).isSome) :
    ∀ (links : List Link) (prevEnd : Nat) (acc : List Char),
      (processLinks t provider base recurOpt links prevEnd acc).isSome := by
  intro links
  induction links with
  | nil => intro prevEnd acc; simp [processLinks]
  | cons l rest ih =>
    intro prevEnd acc
    cases hra : Link.replace_args l base provider with
    | none => simp only [processLinks, hra]; exact ih _ _
    | some newContent =>
      cases hro : recurOpt with
      | none =>
        rw [hro] at ih
        simp only [processLinks, hra]
        exact ih _ _
      | some recur =>
        rw [hro] at ih hrec
        cases hT : l.link_type with
        | Escaped =>
          simp only [processLinks, hra, LinkType.relative_path, hT]
          exact ih _ _
        | Template p =>
          have hread : ∃ contents, provider (pathJoin base p) = some contents := by
            simp only [Link.replace_args, hT] at hra
            cases hc : provider (pathJoin base p) with
            | none => rw [hc] at hra; exact absurd hra (by simp)
            | some contents => exact ⟨contents, rfl⟩
          obtain ⟨contents, hc⟩ := hread
          have hpar := hprov _ _ hc
          rw [Option.isSome_iff_exists] at hpar
          obtain ⟨nb, hnb⟩ := hpar
          have hrecur := hrec recur rfl nb newContent
          rw [Option.isSome_iff_exists] at hrecur
          obtain ⟨expanded, hexp⟩ := hrecur
          simp only [processLinks, hra, LinkType.relative_path, hT, hnb, hexp]
          exact ih _ _

theorem replace_template_total_aux (provider : Provider)
    (hprov : ∀ p c, provider p = some c → (pathParent p).isSome) :
    ∀ (gap : Nat) (depth : Nat), MAX_LINK_NESTED_DEPTH - depth ≤ gap →
      ∀ (t : List Char) (base src : PathS),
        (replace_template t provider base src depth).isSome := by
  intro gap
  induction gap with
  | zero =>
    intro depth hgap t base src
    rw [replace_template_def, recurOf_of_ge provider src (by omega)]
    exact processLinks_total t provider base none hprov (by intro r h; simp at h) _ _ _
  | succ gap ih =>
    intro depth hgap t base src
    by_cases hd : depth < MAX_LINK_NESTED_DEPTH
    · rw [replace_template_def, recurOf_of_lt provider src hd]
      refine processLinks_total t provider base _ hprov ?_ _ _ _
      intro recur hr nb c
      simp only [Option.some.injEq] at hr
      rw [← hr]
      exact ih (depth + 1) (by omega) c nb src
    · rw [replace_template_def, recurOf_of_ge provider src (by omega)]
      exact processLinks_total t provider base none hprov (by intro r h; simp at h) _ _ _

/-! ## Characterisation of the greedy escaped-marker match -/

theorem lastCloseOnLine_none_spec (cl : Char) (hcl : cl ≠ '\n') :
    ∀ (s : List Char), lastCloseOnLine cl s = none →
      ∀ j, (s.drop j).take 2 = [cl, cl] → '\n' ∉ s.take j → False := by
  intro s
  induction s with
  | nil =>
    intro _ j hp _
    rw [List.drop_nil] at hp
    simp at hp
  | cons c rest ih =>
    intro h j hp hn
    simp only [lastCloseOnLine] at h
    split at h
    case isTrue hc =>
      cases j with
      | zero =>
        rw [List.drop_zero] at hp
        cases rest with
        | nil => simp at hp
        | cons d r2 =>
          simp at hp
          exact hcl (by rw [← hp.1, hc])
      | succ j' =>
        rw [List.take_succ_cons] at hn
        exact hn (by rw [hc]; exact List.mem_cons_self _ _)
    case isFalse hc =>
      split at h
      case h_1 k heq => exact absurd h (by simp)
      case h_2 hnone =>
        split at h
        case isTrue => exact absurd h (by simp)
        case isFalse hcond =>
          cases j with
          | zero =>
            rw [List.drop_zero] at hp
            cases rest with
            | nil => simp at hp
            | cons d r2 =>
              simp at hp
              exact hcond (by simp [hp.1, hp.2])
          | succ j' =>
            rw [List.drop_succ_cons] at hp
            rw [List.take_succ_cons] at hn
            exact ih hnone j' hp (fun hm => hn (List.mem_cons_of_mem _ hm))

theorem lastCloseOnLine_some_spec (cl : Char) (hcl : cl ≠ '\n') :
    ∀ (s : List Char) (k : Nat), lastCloseOnLine cl s = some k →
      (s.drop k).take 2 = [cl, cl] ∧ '\n' ∉ s.take k ∧
      ∀ j, (s.drop j).take 2 = [cl, cl] → '\n' ∉ s.take j → j ≤ k := by
  intro s
  induction s with
  | nil => intro k h; simp [lastCloseOnLine] at h
  | cons c rest ih =>
    intro k h
    simp only [lastCloseOnLine] at h
    split at h
    case isTrue => exact absurd h (by simp)
    case isFalse hc =>
      split at h
      case h_1 k' heq =>
        simp only [Option.some.injEq] at h
        subst h
        obtain ⟨ih1, ih2, ih3⟩ := ih k' heq
        refine ⟨by rw [List.drop_succ_cons]; exact ih1, ?_, ?_⟩
        · rw [List.take_succ_cons]
          intro hm
          rcases List.mem_cons.mp hm with h0 | h0
          · exact hc h0.symm
          · exact ih2 h0
        · intro j hp hn
          cases j with
          | zero => omega
          | succ j' =>
            rw [List.drop_succ_cons] at hp
            rw [List.take_succ_cons] at hn
            have := ih3 j' hp (fun hm => hn (List.mem_cons_of_mem _ hm))
            omega
      case h_2 hnone =>
        split at h
        case isTrue hcond =>
          simp only [Option.some.injEq] at h
          subst h
          rw [Bool.and_eq_true] at hcond
          obtain ⟨hc1, hc2⟩ := hcond
          rw [decide_eq_true_eq] at hc1
          rw [decide_eq_true_eq] at hc2
          refine ⟨?_, by simp, ?_⟩
          · rw [List.drop_zero]
            cases rest with
            | nil => simp at hc2
            | cons d r2 =>
              simp only [List.head?_cons, Option.some.injEq] at hc2
              simp [hc1, hc2]
          · intro j hp hn
            cases j with
            | zero => omega
            | succ j' =>
              rw [List.drop_succ_cons] at hp
              rw [List.take_succ_cons] at hn
              exact (lastCloseOnLine_none_spec cl hcl rest hnone j' hp
                (fun hm => hn (List.mem_cons_of_mem _ hm))).elim
        case isFalse => exact absurd h (by simp)

theorem afterDoubleOpen_template (r : List Char) {con : Nat} {lt : LinkType}
    {a : ArgsMap} (h : afterDoubleOpen r = some (con, lt, a)) :
    ∃ p, lt = LinkType.Template p := by
  simp only [afterDoubleOpen] at h
  split at h
  case h_1 r2 heq =>
    split at h
    case isTrue =>
      split at h
      · exact absurd h (by simp)
      · split at h
        · exact absurd h (by simp)
        · split at h
          case h_1 con' path heq2 =>
            simp only [Option.some.injEq, Prod.mk.injEq] at h
            exact ⟨path, h.2.1.symm⟩
          case h_2 =>
            split at h
            case h_1 con' path raw heq3 =>
              simp only [Option.some.injEq, Prod.mk.injEq] at h
              exact ⟨path, h.2.1.symm⟩
            case h_2 => exact absurd h (by simp)
    case isFalse => exact absurd h (by simp)
  case h_2 => exact absurd h (by simp)

theorem tryLink_escaped_inv (c : Char) (rest : List Char) {extra : Nat}
    {a : ArgsMap} (h : tryLink c rest = some (extra, LinkType.Escaped, a)) :
    c = '\\' ∧ ∃ r k, rest = '\x7b' :: '\x7b' :: '#' :: r ∧
      lastCloseOnLine '\x7d' r = some k ∧ extra = 5 + k := by
  simp only [tryLink] at h
  split at h
  case isTrue hc =>
    split at h
    case h_1 r =>
      split at h
      case h_1 k heq =>
        simp only [Option.some.injEq, Prod.mk.injEq] at h
        exact ⟨hc, r, k, rfl, heq, h.1.symm⟩
      case h_2 => exact absurd h (by simp)
    case h_2 => exact absurd h (by simp)
  case isFalse hc =>
    split at h
    case isTrue =>
      split at h
      case h_1 r =>
        simp only [Option.map_eq_some'] at h
        obtain ⟨⟨con, lt', a'⟩, hsome, heq⟩ := h
        obtain ⟨p, hp⟩ := afterDoubleOpen_template r hsome
        simp only [Prod.mk.injEq] at heq
        rw [hp] at heq
        exact absurd heq.2.1 (by simp)
      case h_2 => exact absurd h (by simp)
    case isFalse => exact absurd h (by simp)

/-- Shape of every escaped link found by the scanner: it starts with the
escape character and the opening delimiter, and its end is determined by
the LAST doubled closing delimiter reachable without a newline. -/
theorem escaped_link_shape (t : List Char) (l : Link)
    (hmem : l ∈ extract_template_links t) (hesc : l.link_type = LinkType.Escaped) :
    ∃ k, lastCloseOnLine '\x7d' (t.drop (l.start_index + 4)) = some k ∧
      l.end_index = l.start_index + 6 + k ∧
      l.link_text = '\\' :: '\x7b' :: '\x7b' :: '#' ::
        (t.drop (l.start_index + 4)).take (k + 2) := by
  obtain ⟨c, rest, extra, hdrop, htry, hend, htext⟩ :=
    extract_template_links_sound t l hmem
  rw [hesc] at htry
  obtain ⟨hc, r, k, hrest, hlast, hextra⟩ := tryLink_escaped_inv c rest htry
  subst hc
  subst hrest
  subst hextra
  have h1 := drop_cons_succ hdrop
  have h2 := drop_cons_succ h1
  have h3 := drop_cons_succ h2
  have h4 := drop_cons_succ h3
  have hr : t.drop (l.start_index + 4) = r := by
    rw [show l.start_index + 4 = l.start_index + 1 + 1 + 1 + 1 by omega]
    exact h4
  refine ⟨k, by rw [hr]; exact hlast, by omega, ?_⟩
  rw [htext, hr]
  have h14 : 1 + (5 + k) = (k + 2) + 4 := by omega
  rw [h14]
  rfl

/-! ## The multi-line parser and the amended description -/

theorem eq_mem_iff_takeWhile_len (l : List Char) :
    '=' ∈ l ↔ (l.takeWhile (fun c => c ≠ '=')).length ≠ l.length := by
  induction l with
  | nil => simp
  | cons c r ih =>
    by_cases hc : c = '='
    · subst hc
      constructor
      · intro _
        rw [List.takeWhile_cons]
        simp
      · intro _
        exact List.mem_cons_self _ _
    · constructor
      · intro hm
        rw [List.takeWhile_cons, if_pos (by simp [hc])]
        simp only [List.length_cons]
        have hmr : '=' ∈ r := by
          rcases List.mem_cons.mp hm with h0 | h0
          · exact absurd h0.symm hc
          · exact h0
        have := ih.mp hmr
        omega
      · intro hne
        rw [List.takeWhile_cons, if_pos (by simp [hc])] at hne
        simp only [List.length_cons] at hne
        exact List.mem_cons_of_mem _ (ih.mpr (by omega))

theorem drop_takeWhile_succ (p : Char → Bool) (l : List Char) :
    l.drop ((l.takeWhile p).length + 1) = (l.dropWhile p).drop 1 := by
  have h1 : l.drop ((l.takeWhile p).length) = l.dropWhile p := by
    have h := @List.drop_left' Char (l.takeWhile p) (l.dropWhile p)
      ((l.takeWhile p).length) rfl
    rw [List.takeWhile_append_dropWhile] at h
    exact h
  have h2 : l.drop ((l.takeWhile p).length + 1)
      = (l.drop ((l.takeWhile p).length)).drop 1 := by
    rw [List.drop_drop, Nat.add_comm]
  rw [h2, h1]

theorem splitFirstEq_eq_amended (tl : List Char) :
    splitFirstEq tl
      = if '=' ∈ tl then
          some (trimChars (tl.takeWhile (fun c => c ≠ '=')),
                (tl.dropWhile (fun c => c ≠ '=')).drop 1)
        else none := by
  unfold splitFirstEq
  by_cases hm : '=' ∈ tl
  · rw [if_pos hm, if_neg ((eq_mem_iff_takeWhile_len tl).mp hm)]
    rw [drop_takeWhile_succ]
  · rw [if_neg hm]
    have heq : (tl.takeWhile (fun c => c ≠ '=')).length = tl.length := by
      by_contra hne
      exact hm ((eq_mem_iff_takeWhile_len tl).mpr hne)
    rw [if_pos heq]

theorem multiline_eq_amended (raw : List Char) :
    parseMultiline raw = parseMultilineAmended raw := by
  unfold parseMultiline parseMultilineAmended
  generalize splitOnLB raw = ls
  induction ls with
  | nil => rfl
  | cons line rest ih =>
    by_cases he : (trimChars line).isEmpty
    · simp only [List.map_cons, List.filter_cons, List.filterMap_cons, he,
        Bool.not_true, Bool.false_eq_true, if_false, if_true]
      exact ih
    · by_cases hm : '=' ∈ trimChars line
      · simp only [List.map_cons, List.filter_cons, List.filterMap_cons, he,
          Bool.not_false, if_true, splitFirstEq_eq_amended, hm, if_false,
          Bool.false_eq_true]
        rw [ih]
      · simp only [List.map_cons, List.filter_cons, List.filterMap_cons, he,
          Bool.not_false, if_true, splitFirstEq_eq_amended, hm, if_false,
          Bool.false_eq_true]
        exact ih

/-! ## Concrete documents and providers used by the claims -/

/-- A provider with no files at all (the default `TestFileReader`). -/
def failProvider : Provider := fun _ => none

/-- The escaped invocation of the spec's escaping-idempotence test. -/
def escDoc : List Char := "\\\x7b\x7b#template x.md\x7d\x7d".data

/-- The scanned link of `escDoc`. -/
def escLink : Link := Link.mk 0 19 LinkType.Escaped escDoc []

/-- A document that is a single unresolvable invocation. -/
def c3Doc : List Char := "\x7b\x7b#template missing.md\x7d\x7d".data

/-- A document with a failing invocation followed by a succeeding one. -/
def c3TwoDoc : List Char :=
  "A \x7b\x7b#template missing.md\x7d\x7d B \x7b\x7b#template ok.md\x7d\x7d C".data

/-- Provider resolving only `ok.md`. -/
def c3TwoProvider : Provider :=
  fun p => if p = "ok.md".data then some "OK".data else none

/-- A single unresolvable invocation, used at depth 10. -/
def c4Doc : List Char := "\x7b\x7b#template m.md\x7d\x7d".data

/-- A template that includes itself. -/
def cycDoc : List Char := "\x7b\x7b#template t.md\x7d\x7d".data

/-- Provider on which `cycDoc` is cyclic. -/
def cycProvider : Provider :=
  fun p => if p = "t.md".data then some cycDoc else none

/-- Provider for the relative-resolution claim. -/
def c5Provider : Provider :=
  fun p => if p = "base/sub/a.md".data then some "X".data else none

/-- The scanned link of a nested invocation with a relative path. -/
def c5Link : Link :=
  Link.mk 0 22 (LinkType.Template "sub/a.md".data)
    "\x7b\x7b#template sub/a.md\x7d\x7d".data []

/-- The invocation whose argument value contains `=`. -/
def c7Doc : List Char := "\x7b\x7b#template t.md expr=2+2=4\x7d\x7d".data

/-- A multi-line invocation whose value line ends in a space. -/
def c8Doc : List Char := "\x7b\x7b#template\nt.md\na=b \n\x7d\x7d".data

/-- An escaped marker followed, on the same line, by a template marker. -/
def c9Doc : List Char :=
  "\\\x7b\x7b#a\x7d\x7d \x7b\x7b#template b.md\x7d\x7d".data

/-- A lone escaped marker. -/
def c9WDoc : List Char := "\\\x7b\x7b#x\x7d\x7d".data

/-- The scanned link of `c9WDoc`. -/
def c9WLink : Link := Link.mk 0 7 LinkType.Escaped c9WDoc []

/-- An invocation whose path is the filesystem root. -/
def c10Doc : List Char := "\x7b\x7b#template /\x7d\x7d".data

/-- A provider that has content for the root path. -/
def rootProvider : Provider := fun p => if p = ['/'] then some [] else none

/-! ## Validation against the unit tests of lib.rs -/

example :
    replace_template "\x7b\x7b#template footer.md\x7d\x7d".data
      (fun p => if p = "footer.md".data
        then some "Designed By - [[#authors Goudham]]".data else none)
      [] [] 0
      = some "Designed By - Goudham".data := by decide

example :
    replace_template "\x7b\x7b#template footer.md authors=Hazel\x7d\x7d".data
      (fun p => if p = "footer.md".data
        then some "Designed By - [[#authors Goudham]]".data else none)
      [] [] 0
      = some "Designed By - Hazel".data := by decide

example :
    replace_template "\x7b\x7b#template footer.md authors=Goudham & Hazel\x7d\x7d".data
      (fun p => if p = "footer.md".data
        then some "Designed & Created With Love From - [[#authors]]".data else none)
      [] [] 0
      = some "Designed & Created With Love From - Goudham & Hazel".data := by decide

example : replace_template c3Doc failProvider [] [] 0 = some c3Doc := by decide

/-! ## The claims -/

/-- C1: for every document text, file provider, base directory, source and
depth, the string returned by `replace_template` is exactly the
concatenation, in document order, of the literal text between consecutive
invocation spans and, for each invocation, of its expansion or fallback
piece (`linkPiece`); all text outside the matched marker spans is taken
verbatim, slice by slice, from the original text. -/
theorem spec_C1 (t : List Char) (provider : Provider) (base src : PathS)
    (depth : Nat) :
    replace_template t provider base src depth
      = assembleSpec t (linkPiece provider base (recurOf provider src depth))
          (extract_template_links t) 0 :=
  replace_template_assemble t provider base src depth

/-- C2 counterexample: at recursion depth 10 (reachable both through ten
nested inclusions and directly, since `replace_template` is public) an
escaped invocation is NOT emitted with the backslash stripped - the
successful `Ok` arm falls into the depth-exceeded branch and the
invocation is dropped, so the document expands to the empty string
instead of the de-escaped marker text. -/
theorem spec_C2_cex :
    replace_template escDoc failProvider [] [] 10 = some [] ∧
    escDoc.drop 1 ≠ ([] : List Char) := by decide

/-- C2 (amended): at recursion depths BELOW the bound - equivalently,
whenever the recursion continuation is available - an escaped invocation
contributes exactly its matched text with the leading backslash stripped,
for every provider and every continuation (hence no file-provider access
and no recursive expansion); and the escaping-idempotence example holds at
depth 0 for every provider.  At depth 10 and deeper an escaped invocation
is instead dropped, like any successfully resolved invocation. -/
theorem spec_C2 :
    (∀ (provider : Provider) (base : PathS)
        (recur : PathS → List Char → Option (List Char)) (l : Link),
        l.link_type = LinkType.Escaped →
        linkPiece provider base (some recur) l = some (l.link_text.drop 1)) ∧
    (∀ provider : Provider,
        replace_template escDoc provider [] [] 0 = some (escDoc.drop 1)) := by
  constructor
  · exact linkPiece_escaped
  · intro provider
    rfl

/-- Closed witness for the amended C2 at a concrete escaped link. -/
theorem spec_C2_witness :
    linkPiece failProvider [] (some (fun _ _ => none)) escLink
      = some (escLink.link_text.drop 1) :=
  spec_C2.1 failProvider [] (fun _ _ => none) escLink rfl

/-- C3: when the provider fails for a template invocation the piece
emitted for it is exactly its matched marker text, at any recursion
state; a document all of whose invocations are failing template
invocations expands to itself (so expansion continues across failures and
no other text is affected); in particular the single unresolvable
invocation document expands to itself, and in a two-invocation document
the failing marker survives verbatim while the other one still expands. -/
theorem spec_C3 :
    (∀ (provider : Provider) (base : PathS)
        (recurOpt : Option (PathS → List Char → Option (List Char)))
        (l : Link) (p : PathS),
        l.link_type = LinkType.Template p →
        provider (pathJoin base p) = none →
        linkPiece provider base recurOpt l = some l.link_text) ∧
    (∀ (t : List Char) (provider : Provider) (base src : PathS) (depth : Nat),
        (∀ l ∈ extract_template_links t, readFailsB provider base l = true) →
        replace_template t provider base src depth = some t) ∧
    replace_template c3Doc failProvider [] [] 0 = some c3Doc ∧
    replace_template c3TwoDoc c3TwoProvider [] [] 0
      = some "A \x7b\x7b#template missing.md\x7d\x7d B OK C".data := by
  refine ⟨linkPiece_readfail, replace_template_id_of_fails, ?_, ?_⟩ <;> decide

/-- Closed witness for C3: the single unresolvable invocation document
expands to itself. -/
theorem spec_C3_witness :
    replace_template c3Doc failProvider [] [] 0 = some c3Doc :=
  spec_C3.2.1 c3Doc failProvider [] [] 0 (by decide)

/-- C4 counterexample: a template invocation processed at depth 10 whose
file read FAILS is not dropped - the error arm re-emits the whole marker
text and the copy cursor is not advanced past the span, so the document
expands to itself rather than to the empty string the claim predicts. -/
theorem spec_C4_cex :
    replace_template c4Doc failProvider [] [] 10 = some c4Doc ∧
    c4Doc ≠ ([] : List Char) := by decide

/-- C4 (amended): for every template invocation whose file read succeeds
at recursion depth 10 or deeper, the piece contributed to the output is
empty (the resolved content is dropped) while the copy cursor advances
past the span; consequently a template that includes itself terminates,
expanding to the empty string from depth 0 (the model is a total
function, so termination holds by construction). -/
theorem spec_C4 :
    (∀ (provider : Provider) (base src : PathS) (depth : Nat) (l : Link)
        (p : PathS) (contents : List Char),
        MAX_LINK_NESTED_DEPTH ≤ depth →
        l.link_type = LinkType.Template p →
        provider (pathJoin base p) = some contents →
        linkPiece provider base (recurOf provider src depth) l = some []) ∧
    replace_template cycDoc cycProvider [] [] 0 = some [] := by
  constructor
  · intro provider base src depth l p contents hd hT hread
    rw [recurOf_of_ge provider src hd]
    exact linkPiece_depth_exceeded provider base l (Args.replace contents l.args)
      (by simp only [Link.replace_args, hT, hread])
  · decide

/-- Closed witness for the amended C4 at a concrete cyclic link. -/
theorem spec_C4_witness :
    linkPiece cycProvider [] (recurOf cycProvider [] 10)
      (Link.mk 0 18 (LinkType.Template "t.md".data) cycDoc []) = some [] :=
  spec_C4.1 cycProvider [] [] 10
    (Link.mk 0 18 (LinkType.Template "t.md".data) cycDoc [])
    "t.md".data cycDoc (by decide) rfl (by decide)

/-- C5: a template invocation resolves its path by joining it to the
current base directory, and when the read succeeds below the depth bound
its piece is exactly the recursive expansion of the substituted content
with the base directory replaced by the parent directory of the resolved
path and the depth incremented by exactly one (the source is unchanged). -/
theorem spec_C5 (provider : Provider) (base src : PathS) (depth : Nat)
    (l : Link) (p : PathS) (contents : List Char) (nb : PathS)
    (hT : l.link_type = LinkType.Template p)
    (hread : provider (pathJoin base p) = some contents)
    (hd : depth < MAX_LINK_NESTED_DEPTH)
    (hpar : pathParent (pathJoin base p) = some nb) :
    linkPiece provider base (recurOf provider src depth) l
      = replace_template (Args.replace contents l.args) provider nb src
          (depth + 1) := by
  rw [recurOf_of_lt provider src hd]
  exact linkPiece_template_recur provider base _ l p contents nb hT hread hpar

/-- Closed witness for C5 at a concrete relative inclusion. -/
theorem spec_C5_witness :
    linkPiece c5Provider "base".data (recurOf c5Provider [] 0) c5Link
      = replace_template (Args.replace "X".data []) c5Provider
          "base/sub".data [] 1 :=
  spec_C5 c5Provider "base".data [] 0 c5Link "sub/a.md".data "X".data
    "base/sub".data rfl (by decide) (by decide) (by decide)

/-- C6: placeholder substitution is the concatenation, in document order,
of the untouched text between placeholder spans and of the per-placeholder
pieces: a plain placeholder emits the mapped value when its name is bound
and NOTHING otherwise, and a defaulted placeholder emits the mapped value
when bound - the supplied argument overriding the default - and its
default text verbatim otherwise. -/
theorem spec_C6 (contents : List Char) (all_args : ArgsMap) :
    Args.replace contents all_args
      = argsAssembleSpec contents all_args (extract_args contents) 0 :=
  Args_replace_eq_spec contents all_args

/-- C7: the invocation whose argument text is `expr=2+2=4` parses as one
single link carrying exactly one argument, named `expr`, with the value
`2+2=4` - the `=` characters inside the value do not start new pairs,
because a pair boundary requires whitespace followed by a `name=` shape. -/
theorem spec_C7 :
    extract_template_links c7Doc
      = [Link.mk 0 29 (LinkType.Template "t.md".data) c7Doc
          [("expr".data, "2+2=4".data)]] := by decide

/-- C8 counterexample: in the multi-line layout the line `a=b ` (with a
trailing space before the line break) parses with value `b`, not the
claimed untrimmed right side `b ` - the code trims the WHOLE line before
splitting at the first `=`, so whitespace at the end of the value is
removed. -/
theorem spec_C8_cex :
    (extract_template_links c8Doc).map (fun l => l.args)
      = [[("a".data, "b".data)]] ∧
    ("b".data : List Char) ≠ "b ".data := by decide

/-- C8 (amended): in the multi-line layout every line is first trimmed at
both ends; a non-empty trimmed line containing `=` is split at its first
`=`, the left side trimmed again into the name and the right side OF THE
TRIMMED LINE becoming the value - so whitespace just after the `=` and
interior whitespace are preserved, but whitespace adjacent to the line
terminator is removed. -/
theorem spec_C8 (raw : List Char) :
    parseMultiline raw = parseMultilineAmended raw :=
  multiline_eq_amended raw

/-- C9 counterexample: in `c9Doc` the first closing delimiter after the
escape ends at index 7 (`strSlice c9Doc 5 7` is the pair of closing
braces), yet the scanner produces a single escaped link whose span runs
to index 26, absorbing the text after that first closing delimiter -
including the entire later `template` marker - into the escaped span. -/
theorem spec_C9_cex :
    (extract_template_links c9Doc).map
        (fun l => (l.start_index, l.end_index, l.link_type))
      = [(0, 26, LinkType.Escaped)] ∧
    strSlice c9Doc 5 7 = ['\x7d', '\x7d'] ∧
    (∀ l ∈ extract_template_links c9Doc, l.end_index ≠ 7) := by decide

/-- C9 (amended): an escaped invocation's span extends greedily to the
LAST doubled closing delimiter reachable on the same line: the matched
text contains no newline and ends with the closing pair, and any doubled
closing delimiter at or after the end of the span is separated from the
marker interior by a newline. -/
theorem spec_C9 (t : List Char) (l : Link)
    (hmem : l ∈ extract_template_links t)
    (hesc : l.link_type = LinkType.Escaped) :
    '\n' ∉ l.link_text ∧
    (t.drop (l.end_index - 2)).take 2 = ['\x7d', '\x7d'] ∧
    ∀ j, l.end_index - 1 ≤ j → (t.drop j).take 2 = ['\x7d', '\x7d'] →
      '\n' ∈ strSlice t (l.start_index + 4) j := by
  obtain ⟨k, hlast, hend, htext⟩ := escaped_link_shape t l hmem hesc
  obtain ⟨hpair, hnl, hmax⟩ :=
    lastCloseOnLine_some_spec '\x7d' (by decide)
      (t.drop (l.start_index + 4)) k hlast
  refine ⟨?_, ?_, ?_⟩
  · rw [htext]
    intro hm
    simp only [List.mem_cons] at hm
    rcases hm with h | h | h | h | h
    · exact absurd h (by decide)
    · exact absurd h (by decide)
    · exact absurd h (by decide)
    · exact absurd h (by decide)
    · rw [List.take_add, hpair] at h
      rcases List.mem_append.mp h with h2 | h2
      · exact hnl h2
      · simp at h2
  · have hdr : t.drop (l.end_index - 2) = (t.drop (l.start_index + 4)).drop k := by
      rw [List.drop_drop]
      congr 1
      omega
    rw [hdr]
    exact hpair
  · intro j hj hp
    have hj4 : l.start_index + 4 ≤ j := by omega
    have hdropj : t.drop j = (t.drop (l.start_index + 4)).drop (j - (l.start_index + 4)) := by
      rw [List.drop_drop]
      congr 1
      omega
    rw [hdropj] at hp
    by_contra hnin
    have hsl : strSlice t (l.start_index + 4) j
        = (t.drop (l.start_index + 4)).take (j - (l.start_index + 4)) := rfl
    rw [hsl] at hnin
    have hle := hmax (j - (l.start_index + 4)) hp hnin
    omega

/-- Closed witness for the amended C9 at a concrete escaped marker. -/
theorem spec_C9_witness :
    '\n' ∉ c9WLink.link_text ∧
    (c9WDoc.drop (c9WLink.end_index - 2)).take 2 = ['\x7d', '\x7d'] ∧
    ∀ j, c9WLink.end_index - 1 ≤ j → (c9WDoc.drop j).take 2 = ['\x7d', '\x7d'] →
      '\n' ∈ strSlice c9WDoc (c9WLink.start_index + 4) j :=
  spec_C9 c9WDoc c9WLink (by decide) rfl

/-- C10 counterexample: with a provider that supplies content for the
filesystem root, expanding the invocation whose path is `/` drives the
`expect` inside `relative_path` into a panic (modelled as the result
`none`), so `replace_template` does not return a string. -/
theorem spec_C10_cex :
    replace_template c10Doc rootProvider [] [] 0 = none := by decide

/-- C10 (amended): whenever the provider supplies content only for paths
that have a parent directory (in particular never for the filesystem
root), `replace_template` returns a string for every text, base, source
and depth - every failure is represented as a diagnostic plus a
best-effort result, and no panic escapes the call. -/
theorem spec_C10 (provider : Provider)
    (hprov : ∀ p c, provider p = some c → (pathParent p).isSome)
    (t : List Char) (base src : PathS) (depth : Nat) :
    (replace_template t provider base src depth).isSome :=
  replace_template_total_aux provider hprov MAX_LINK_NESTED_DEPTH depth
    (by omega) t base src

/-- Closed witness for the amended C10 with the empty provider. -/
theorem spec_C10_witness :
    (replace_template "x \x7b\x7b#template y.md\x7d\x7d".data failProvider
      [] [] 3).isSome :=
  spec_C10 failProvider
    (fun p c h => absurd h (by simp [failProvider]))
    "x \x7b\x7b#template y.md\x7d\x7d".data [] [] 3
